import Mathlib

/-
Verification development for the buffered-reader library (single source file
`src/lib.rs`).  The Rust code is shallowly embedded: bytes are `Nat`, byte
buffers are `List Nat`, the `Vec` allocation capacity is tracked explicitly
in a `vcap` field (an exact allocator: `reserve_exact` delivers precisely
what is requested), the underlying `Read + Seek` source is a deterministic
state machine driven by a per-call response schedule, and fallible calls
return `Except Unit`.  Every source interaction is logged (`rlog` for read
spans, `slog` for seek requests) so that claims counting source calls are
directly statable.
-/

namespace BufRedux

/-- Default buffer size constant from the source (64 * 1024). -/
def DEFAULT_BUF_SIZE : Nat := 64 * 1024

/-- Move threshold constant from the source (1024). -/
def MOVE_THRESHOLD : Nat := 1024

/-- Response of the underlying source to one read call: either `ok k`
(deliver up to `k` bytes, `0` meaning end of stream) or an IO error. -/
inductive SrcResp where
  | ok (k : Nat)
  | err
deriving DecidableEq

/-- Embedding of `std::io::SeekFrom`.  `fromStart` carries a `u64`
(nonnegative), the other two carry `i64` offsets modelled as `Int`. -/
inductive SeekFrom where
  | fromStart (n : Nat)
  | fromEnd (n : Int)
  | fromCurrent (n : Int)
deriving DecidableEq

/-- The underlying reader: a fixed byte stream `data` still to be produced,
a per-call response schedule `resp` (exhausted schedule means end of
stream), a physical seek position `pos`, the position denoted by `End(0)`
(`endLen`), a per-call seek failure schedule `seekErrs`, and logs of every
read span (`rlog`) and every seek request (`slog`) issued to it. -/
structure Src where
  data : List Nat
  resp : List SrcResp
  pos : Int
  endLen : Int
  seekErrs : List Bool
  rlog : List Nat
  slog : List SeekFrom
deriving DecidableEq

/-- One `Read::read` call on the source with a destination span of length
`m`: consumes one schedule entry; on `ok k` it delivers the next
`min k m` bytes of `data` (fewer if the stream ends), on `err` it delivers
nothing and leaves the stream untouched.  A call never reports more bytes
than the span it was given. -/
def srcRead (s : Src) (m : Nat) : Except Unit (List Nat) × Src :=
  match s.resp.headD (SrcResp.ok 0) with
  | SrcResp.err =>
      (Except.error (), { s with resp := s.resp.tail, rlog := s.rlog ++ [m] })
  | SrcResp.ok k =>
      let t := min k m
      (Except.ok (s.data.take t),
       { s with data := s.data.drop t, resp := s.resp.tail,
                rlog := s.rlog ++ [m],
                pos := s.pos + (s.data.take t).length })

/-- One `Seek::seek` call on the source: consumes one entry of the failure
schedule; a failing seek reports an error and does not move the position. -/
def srcSeek (s : Src) (sf : SeekFrom) : Except Unit Int × Src :=
  let s1 := { s with seekErrs := s.seekErrs.tail, slog := s.slog ++ [sf] }
  if s.seekErrs.headD false then (Except.error (), s1)
  else
    match sf with
    | SeekFrom.fromStart n => (Except.ok (n : Int), { s1 with pos := (n : Int) })
    | SeekFrom.fromEnd n => (Except.ok (s.endLen + n), { s1 with pos := s.endLen + n })
    | SeekFrom.fromCurrent n => (Except.ok (s.pos + n), { s1 with pos := s.pos + n })

/-- Embedding of `BufReader<R>`: the owned source, the buffer contents
(`buf`, of length `Vec::len`), the tracked `Vec` allocation capacity
`vcap`, and the two cursors. -/
structure BufReader where
  inner : Src
  buf : List Nat
  vcap : Nat
  pos : Nat
  cap : Nat
deriving DecidableEq

/-- The sub-list `l[i .. j)`. -/
def listSlice (l : List Nat) (i j : Nat) : List Nat :=
  (l.drop i).take (j - i)

/-- Overwrite `l` at offset `i` with the bytes of `c` (the effect of reading
into the sub-span `l[i ..]`), leaving the rest unchanged. -/
def writeAt (l : List Nat) (i : Nat) (c : List Nat) : List Nat :=
  l.take i ++ c ++ l.drop (i + c.length)

/-- Embedding of `BufReader::make_room` exactly as written: when
`pos == cap || pos == 0` both cursors are reset to `0`; otherwise the bytes
of `[pos, cap)` are moved down to offset `0` (an overlap-safe `ptr::copy`)
and the cursors adjusted. -/
def make_room (b : BufReader) : BufReader :=
  if b.pos = b.cap ∨ b.pos = 0 then
    { b with pos := 0, cap := 0 }
  else
    { b with buf := writeAt b.buf 0 (listSlice b.buf b.pos b.cap),
             pos := 0, cap := b.cap - b.pos }

/-- Embedding of `BufReader::grow` under an exact allocator:
`reserve_exact(additional)` raises the capacity to
`max vcap (len + additional)`; the code then extends the vector with
`max(additional, capacity)` zero bytes. -/
def grow (b : BufReader) (additional : Nat) : BufReader :=
  let vcap1 := max b.vcap (b.buf.length + additional)
  let add2 := max additional vcap1
  let newBuf := b.buf ++ List.replicate add2 0
  { b with buf := newBuf, vcap := max vcap1 newBuf.length }

/-- Embedding of `BufReader::with_capacity`: a fresh empty vector followed
by one `grow` call. -/
def with_capacity (c : Nat) (s : Src) : BufReader :=
  grow { inner := s, buf := [], vcap := 0, pos := 0, cap := 0 } c

/-- Embedding of `BufReader::get_buf`: the valid unread region `[pos, cap)`. -/
def get_buf (b : BufReader) : List Nat :=
  listSlice b.buf b.pos b.cap

/-- Embedding of `BufReader::available`. -/
def available (b : BufReader) : Nat := b.cap - b.pos

/-- Embedding of `BufReader::capacity`. -/
def capacity (b : BufReader) : Nat := b.buf.length

/-- Embedding of `BufRead::consume`: `pos = min(pos + amt, cap)`. -/
def consume (b : BufReader) (amt : Nat) : BufReader :=
  { b with pos := min (b.pos + amt) b.cap }

/-- Embedding of `BufRead::fill_buf`: when the unread region is empty, one
source read into the whole buffer resets the cursors; the unread region is
returned.  A failing source read propagates and leaves the cursors alone. -/
def fill_buf (b : BufReader) : Except Unit (List Nat) × BufReader :=
  if b.pos = b.cap then
    match srcRead b.inner b.buf.length with
    | (Except.error e, s1) => (Except.error e, { b with inner := s1 })
    | (Except.ok c, s1) =>
        let b1 : BufReader :=
          { b with inner := s1, buf := writeAt b.buf 0 c, pos := 0, cap := c.length }
        (Except.ok (get_buf b1), b1)
  else
    (Except.ok (get_buf b), b)

/-- Embedding of `BufReader::read_into_buf`: on an empty unread region one
source read into the whole buffer; otherwise optionally compact (iff the
tail free room is smaller than `pos` and `pos` exceeds `MOVE_THRESHOLD`),
then one source read into the tail span `buf[cap ..]`. -/
def read_into_buf (b : BufReader) : Except Unit Nat × BufReader :=
  if b.pos = b.cap then
    match srcRead b.inner b.buf.length with
    | (Except.error e, s1) => (Except.error e, { b with inner := s1 })
    | (Except.ok c, s1) =>
        (Except.ok c.length,
         { b with inner := s1, buf := writeAt b.buf 0 c, pos := 0, cap := c.length })
  else
    let b1 := if b.buf.length - b.cap < b.pos ∧ MOVE_THRESHOLD < b.pos
              then make_room b else b
    match srcRead b1.inner (b1.buf.length - b1.cap) with
    | (Except.error e, s1) => (Except.error e, { b1 with inner := s1 })
    | (Except.ok c, s1) =>
        (Except.ok (b1.cap + c.length),
         { b1 with inner := s1, buf := writeAt b1.buf b1.cap c,
                   cap := b1.cap + c.length })

/-- Embedding of `Read::read` for `BufReader`: the large-read bypass when
the unread region is empty and the destination is at least the whole
buffer, otherwise `fill_buf` followed by a copy of
`min (destLen, available)` bytes and a `consume`.  The delivered bytes are
returned in place of the Rust byte count. -/
def bufRead (b : BufReader) (destLen : Nat) : Except Unit (List Nat) × BufReader :=
  if b.pos = b.cap ∧ b.buf.length ≤ destLen then
    match srcRead b.inner destLen with
    | (r, s1) => (r, { b with inner := s1 })
  else
    match fill_buf b with
    | (Except.error e, b1) => (Except.error e, b1)
    | (Except.ok rem, b1) =>
        let n := min destLen rem.length
        (Except.ok (rem.take n), consume b1 n)

/-- Embedding of `i64::checked_sub` on `Int`. -/
def checkedSub (n r : Int) : Option Int :=
  if -(2 ^ 63) ≤ n - r ∧ n - r ≤ 2 ^ 63 - 1 then some (n - r) else none

/-- Embedding of `Seek::seek` for `BufReader`.  `Current(n)` subtracts the
buffered remainder with underflow detection; underflow triggers the
two-step rewind (marking the buffer consumed between the two source
seeks).  A failing source seek propagates immediately, skipping the final
`pos = cap` assignment. -/
def bufSeek (b : BufReader) (sf : SeekFrom) : Except Unit Int × BufReader :=
  match sf with
  | SeekFrom.fromCurrent n =>
      let remainder : Int := ((b.cap - b.pos : Nat) : Int)
      match checkedSub n remainder with
      | some offset =>
          match srcSeek b.inner (SeekFrom.fromCurrent offset) with
          | (Except.error e, s1) => (Except.error e, { b with inner := s1 })
          | (Except.ok v, s1) =>
              (Except.ok v, { b with inner := s1, pos := b.cap })
      | none =>
          match srcSeek b.inner (SeekFrom.fromCurrent (-remainder)) with
          | (Except.error e, s1) => (Except.error e, { b with inner := s1 })
          | (Except.ok _, s1) =>
              match srcSeek s1 (SeekFrom.fromCurrent n) with
              | (Except.error e, s2) =>
                  (Except.error e, { b with inner := s2, pos := b.cap })
              | (Except.ok v, s2) =>
                  (Except.ok v, { b with inner := s2, pos := b.cap })
  | other =>
      match srcSeek b.inner other with
      | (Except.error e, s1) => (Except.error e, { b with inner := s1 })
      | (Except.ok v, s1) => (Except.ok v, { b with inner := s1, pos := b.cap })

/-- Embedding of `Unbuffer<R>`: the source plus the truncated buffer
remnant starting at `pos`. -/
structure Unbuffer where
  inner : Src
  buf : List Nat
  pos : Nat
deriving DecidableEq

/-- Embedding of `BufReader::unbuffer`: truncate the storage to `cap`,
keeping `pos`. -/
def unbuffer (b : BufReader) : Unbuffer :=
  { inner := b.inner, buf := b.buf.take b.cap, pos := b.pos }

/-- Embedding of `Unbuffer::is_buf_empty`. -/
def is_buf_empty (u : Unbuffer) : Bool :=
  u.buf.length ≤ u.pos

/-- Embedding of `Unbuffer::buf_len`. -/
def buf_len (u : Unbuffer) : Nat :=
  u.buf.length - u.pos

/-- Embedding of `Read::read` for `Unbuffer`, exactly as written: while the
remnant is non-empty, copy from it and advance `pos`; the statement
`self.buf == Vec::new();` at drain completion is a comparison with no
effect, so the remnant storage is left in place.  Once `pos` is past the
remnant, forward to the source. -/
def unbufRead (u : Unbuffer) (destLen : Nat) : Except Unit (List Nat) × Unbuffer :=
  if u.pos < u.buf.length then
    let k := min destLen (u.buf.length - u.pos)
    (Except.ok ((u.buf.drop u.pos).take k), { u with pos := u.pos + k })
  else
    match srcRead u.inner destLen with
    | (r, s1) => (r, { u with inner := s1 })

/-- The bytes carried by a successful read result (a failed read carries
none). -/
def okBytes (r : Except Unit (List Nat)) : List Nat :=
  match r with
  | Except.ok l => l
  | Except.error _ => []

/-- Concatenation of the bytes delivered by a sequence of read results. -/
def concatOks (rs : List (Except Unit (List Nat))) : List Nat :=
  (rs.map okBytes).flatten

/-- The bytes still owed to the caller by a reader state: the unread
buffered region followed by the source's remaining stream. -/
def streamOf (b : BufReader) : List Nat :=
  get_buf b ++ b.inner.data

/-- Run a sequence of `read` calls with the given destination lengths,
collecting every call's result. -/
def bufRunReads (b : BufReader) : List Nat → List (Except Unit (List Nat)) × BufReader
  | [] => ([], b)
  | d :: ds =>
      let x := bufRead b d
      let y := bufRunReads x.2 ds
      (x.1 :: y.1, y.2)

/-- Run the same sequence of read calls directly against the source. -/
def srcRunReads (s : Src) : List Nat → List (Except Unit (List Nat)) × Src
  | [] => ([], s)
  | d :: ds =>
      let x := srcRead s d
      let y := srcRunReads x.2 ds
      (x.1 :: y.1, y.2)

/-- Run a sequence of `read` calls against an `Unbuffer`, keeping the final
state. -/
def unbufRunReads (u : Unbuffer) : List Nat → Unbuffer
  | [] => u
  | d :: ds => unbufRunReads (unbufRead u d).2 ds

/-- The public operations of `BufReader` as an operation alphabet. -/
inductive Op where
  | opRead (d : Nat)
  | opFill
  | opRefill
  | opConsume (a : Nat)
  | opMakeRoom
  | opGrow (n : Nat)
  | opSeek (sf : SeekFrom)
deriving DecidableEq

/-- Apply one operation to a reader state, discarding its result. -/
def applyOp (b : BufReader) : Op → BufReader
  | Op.opRead d => (bufRead b d).2
  | Op.opFill => (fill_buf b).2
  | Op.opRefill => (read_into_buf b).2
  | Op.opConsume a => consume b a
  | Op.opMakeRoom => make_room b
  | Op.opGrow n => grow b n
  | Op.opSeek sf => (bufSeek b sf).2

/-- Apply a whole sequence of operations. -/
def applyOps (b : BufReader) (ops : List Op) : BufReader :=
  ops.foldl applyOp b

/-- The cursor invariant of a reader state: `pos ≤ cap ≤ L`. -/
def Inv (b : BufReader) : Prop :=
  b.pos ≤ b.cap ∧ b.cap ≤ b.buf.length

instance (b : BufReader) : Decidable (Inv b) := by
  unfold Inv; infer_instance

/-- Writing within bounds preserves the storage length. -/
theorem writeAt_length (l c : List Nat) (i : Nat) (h : i + c.length ≤ l.length) :
    (writeAt l i c).length = l.length := by
  simp [writeAt]; omega

/-- Length of a slice. -/
theorem listSlice_length (l : List Nat) (i j : Nat) :
    (listSlice l i j).length = min (j - i) (l.length - i) := by
  simp [listSlice]

/-- A degenerate slice is empty. -/
theorem listSlice_same (l : List Nat) (i : Nat) : listSlice l i i = [] := by
  simp [listSlice]

/-- Reading a chunk into the front of the buffer makes that chunk the
slice `[0, len c)`. -/
theorem listSlice_writeAt_self (l c : List Nat) :
    listSlice (writeAt l 0 c) 0 c.length = c := by
  simp [writeAt, listSlice]

/-- Dropping from the front of a slice shifts its start. -/
theorem listSlice_drop (l : List Nat) (i j m : Nat) :
    (listSlice l i j).drop m = listSlice l (i + m) j := by
  simp [listSlice, List.drop_take, List.drop_drop]
  congr 1
  omega

/-- Writing a chunk at offset `i` leaves the slice `[p, i)` unchanged. -/
theorem listSlice_writeAt_below (l c : List Nat) (i p : Nat) (hp : p ≤ i)
    (hi : i ≤ l.length) :
    listSlice (writeAt l i c) p i = listSlice l p i := by
  simp only [writeAt, listSlice]
  rw [List.append_assoc, List.drop_append_of_le_length (by simp; omega),
      List.drop_take, List.take_append_of_le_length (by simp; omega),
      List.take_take]
  simp

/-- One source read conserves the stream: the delivered bytes followed by
the remaining stream are the original stream. -/
theorem srcRead_conserve (s : Src) (m : Nat) :
    okBytes (srcRead s m).1 ++ (srcRead s m).2.data = s.data := by
  cases hr : s.resp with
  | nil => simp [srcRead, hr, okBytes]
  | cons r t =>
      cases r with
      | err => simp [srcRead, hr, okBytes]
      | ok k => simp [srcRead, hr, okBytes]

/-- A source read never reports more bytes than the span it was given. -/
theorem srcRead_ok_len (s : Src) (m : Nat) (c : List Nat)
    (h : (srcRead s m).1 = Except.ok c) : c.length ≤ m := by
  cases hr : s.resp with
  | nil =>
      simp [srcRead, hr] at h
      subst h
      simp
  | cons r t =>
      cases r with
      | err => simp [srcRead, hr] at h
      | ok k =>
          simp [srcRead, hr] at h
          subst h
          simp

/-- Each source read appends exactly its span length to the read log. -/
theorem srcRead_rlog (s : Src) (m : Nat) :
    (srcRead s m).2.rlog = s.rlog ++ [m] := by
  cases hr : s.resp with
  | nil => simp [srcRead, hr]
  | cons r t =>
      cases r with
      | err => simp [srcRead, hr]
      | ok k => simp [srcRead, hr]

/-- A failing source read leaves the stream untouched. -/
theorem srcRead_err_data (s : Src) (m : Nat)
    (h : (srcRead s m).1 = Except.error ()) :
    (srcRead s m).2.data = s.data := by
  cases hr : s.resp with
  | nil => simp [srcRead, hr] at h
  | cons r t =>
      cases r with
      | err => simp [srcRead, hr]
      | ok k => simp [srcRead, hr] at h

/-- Under the cursor invariant the unread region has length `cap - pos`. -/
theorem get_buf_length (b : BufReader) (h : Inv b) :
    (get_buf b).length = b.cap - b.pos := by
  obtain ⟨h1, h2⟩ := h
  simp [get_buf, listSlice]
  omega

/-- An empty unread region is the empty list. -/
theorem get_buf_empty (b : BufReader) (h : b.pos = b.cap) : get_buf b = [] := by
  simp [get_buf, h, listSlice_same]

/-- Consuming preserves the cursor invariant. -/
theorem consume_inv (b : BufReader) (n : Nat) (h : Inv b) : Inv (consume b n) := by
  obtain ⟨h1, h2⟩ := h
  refine ⟨?_, h2⟩
  simp [consume]

/-- The refill of `fill_buf` preserves the cursor invariant. -/
theorem fill_buf_inv (b : BufReader) (h : Inv b) : Inv (fill_buf b).2 := by
  by_cases hpc : b.pos = b.cap
  · cases hsr : srcRead b.inner b.buf.length with
    | mk r s1 =>
        cases r with
        | error e =>
            simp only [fill_buf, hpc, if_pos rfl, if_true, hsr]
            simpa [Inv, hpc] using h.2
        | ok c =>
            have hclen : c.length ≤ b.buf.length :=
              srcRead_ok_len b.inner b.buf.length c (by rw [hsr])
            have hL : (writeAt b.buf 0 c).length = b.buf.length :=
              writeAt_length b.buf c 0 (by simpa using hclen)
            simp only [fill_buf, hpc, if_pos rfl, if_true, hsr]
            exact ⟨Nat.zero_le _, by simpa [hL] using hclen⟩
  · simpa [fill_buf, hpc] using h

/-- The refill of `fill_buf` preserves the owed stream. -/
theorem fill_buf_stream (b : BufReader) (h : Inv b) :
    streamOf (fill_buf b).2 = streamOf b := by
  by_cases hpc : b.pos = b.cap
  · cases hsr : srcRead b.inner b.buf.length with
    | mk r s1 =>
        cases r with
        | error e =>
            have hd : s1.data = b.inner.data := by
              cases e
              have := srcRead_err_data b.inner b.buf.length (by rw [hsr])
              rwa [hsr] at this
            simp [fill_buf, hpc, hsr, streamOf, get_buf, hd]
        | ok c =>
            have hgb : listSlice (writeAt b.buf 0 c) 0 c.length = c :=
              listSlice_writeAt_self b.buf c
            have hcons : c ++ s1.data = b.inner.data := by
              have := srcRead_conserve b.inner b.buf.length
              rwa [hsr] at this
            simp [fill_buf, hpc, hsr, streamOf, get_buf, hgb, listSlice_same]
            simpa using hcons
  · simp [fill_buf, hpc]

/-- A successful `fill_buf` returns exactly the unread region of the
resulting state. -/
theorem fill_buf_ok_rem (b : BufReader) (rem : List Nat)
    (h : (fill_buf b).1 = Except.ok rem) : rem = get_buf (fill_buf b).2 := by
  by_cases hpc : b.pos = b.cap
  · cases hsr : srcRead b.inner b.buf.length with
    | mk r s1 =>
        cases r with
        | error e => simp [fill_buf, hpc, hsr] at h
        | ok c =>
            simp [fill_buf, hpc, hsr] at h ⊢
            exact h.symm
  · simp [fill_buf, hpc] at h ⊢
    exact h.symm

/-- A failing `fill_buf` leaves the cursors and buffer alone. -/
theorem fill_buf_err_state (b : BufReader) (e : Unit)
    (h : (fill_buf b).1 = Except.error e) :
    (fill_buf b).2.pos = b.pos ∧ (fill_buf b).2.cap = b.cap ∧
    (fill_buf b).2.buf = b.buf := by
  by_cases hpc : b.pos = b.cap
  · cases hsr : srcRead b.inner b.buf.length with
    | mk r s1 =>
        cases r with
        | error e1 => simp [fill_buf, hpc, hsr]
        | ok c => simp [fill_buf, hpc, hsr] at h
  · simp [fill_buf, hpc]

/-- One `read` call conserves the owed stream and the cursor invariant. -/
theorem bufRead_step (b : BufReader) (d : Nat) (h : Inv b) :
    okBytes (bufRead b d).1 ++ streamOf (bufRead b d).2 = streamOf b ∧
    Inv (bufRead b d).2 := by
  by_cases hby : b.pos = b.cap ∧ b.buf.length ≤ d
  · cases hsr : srcRead b.inner d with
    | mk r s1 =>
        have hcons : okBytes r ++ s1.data = b.inner.data := by
          have := srcRead_conserve b.inner d
          rwa [hsr] at this
        constructor
        · simp [bufRead, hby, hsr, streamOf, get_buf, listSlice_same, hby.1]
          simpa [get_buf_empty b hby.1, streamOf, get_buf, hby.1, listSlice_same]
            using hcons
        · simp only [bufRead, if_pos hby, hsr]
          exact ⟨by simpa [hby.1] using Nat.le_refl b.cap, h.2⟩
  · have hinv0 := fill_buf_inv b h
    have hstr0 := fill_buf_stream b h
    cases hf : fill_buf b with
    | mk fr b1 =>
        rw [hf] at hinv0 hstr0
        have hinv1 : Inv b1 := hinv0
        have hstr1 : streamOf b1 = streamOf b := hstr0
        cases fr with
        | error e =>
            constructor
            · simpa [bufRead, hby, hf, okBytes] using hstr1
            · simpa [bufRead, hby, hf] using hinv1
        | ok rem =>
            have hrem : rem = get_buf b1 := by
              have := fill_buf_ok_rem b rem (by rw [hf])
              rwa [hf] at this
            have hlen : rem.length = b1.cap - b1.pos := by
              rw [hrem]; exact get_buf_length b1 hinv1
            have hmin : min (b1.pos + min d rem.length) b1.cap
                = b1.pos + min d rem.length := by
              have h1 := hinv1.1
              have h2 : min d rem.length ≤ rem.length := Nat.min_le_right _ _
              omega
            constructor
            · simp [bufRead, hby, hf, okBytes, streamOf, consume, get_buf, hmin]
              rw [← List.append_assoc]
              have hdrop : listSlice b1.buf (b1.pos + min d rem.length) b1.cap =
                  rem.drop (min d rem.length) := by
                rw [hrem, get_buf, ← listSlice_drop]
              rw [hdrop, List.take_append_drop, hrem]
              simpa [streamOf, get_buf] using hstr1
            · simp [bufRead, hby, hf]
              exact consume_inv b1 _ hinv1

/-- Nil case of `concatOks`. -/
theorem concatOks_nil : concatOks [] = [] := by simp [concatOks]

/-- Cons case of `concatOks`. -/
theorem concatOks_cons (r : Except Unit (List Nat)) (rs : List (Except Unit (List Nat))) :
    concatOks (r :: rs) = okBytes r ++ concatOks rs := by
  simp [concatOks]

/-- A whole sequence of `read` calls conserves the owed stream and the
cursor invariant. -/
theorem bufRunReads_conserve (ds : List Nat) (b : BufReader) (h : Inv b) :
    concatOks (bufRunReads b ds).1 ++ streamOf (bufRunReads b ds).2 = streamOf b ∧
    Inv (bufRunReads b ds).2 := by
  induction ds generalizing b with
  | nil => simpa [bufRunReads, concatOks_nil] using h
  | cons d ds ih =>
      obtain ⟨h1, h2⟩ := bufRead_step b d h
      obtain ⟨h3, h4⟩ := ih (bufRead b d).2 h2
      refine ⟨?_, by simpa [bufRunReads] using h4⟩
      simp only [bufRunReads, concatOks_cons]
      rw [List.append_assoc, h3, h1]

/-- Construction facts: a fresh reader has both cursors at zero and owns
the given source untouched. -/
theorem with_capacity_fields (c : Nat) (s : Src) :
    (with_capacity c s).pos = 0 ∧ (with_capacity c s).cap = 0 ∧
    (with_capacity c s).inner = s := by
  simp [with_capacity, grow]

/-- A fresh reader satisfies the cursor invariant. -/
theorem with_capacity_inv (c : Nat) (s : Src) : Inv (with_capacity c s) := by
  simp [Inv, with_capacity, grow]

/-- A fresh reader owes exactly the source's stream. -/
theorem with_capacity_stream (c : Nat) (s : Src) :
    streamOf (with_capacity c s) = s.data := by
  simp [streamOf, get_buf, with_capacity, grow, listSlice_same]

/-- Claim C1: for every source (a fixed sequence of per-call chunk
responses) and every sequence of `read` calls on a buffered reader wrapping
it, the concatenation of the delivered bytes together with the bytes still
owed (unread buffer region followed by the source's remaining stream)
reconstructs the source's byte stream exactly; in particular the delivered
bytes are a prefix of the stream the source would produce when read
directly, with no byte duplicated, lost, or reordered. -/
theorem buffered_reads_deliver_source_prefix (c : Nat) (s : Src) (ds : List Nat) :
    concatOks (bufRunReads (with_capacity c s) ds).1 ++
      streamOf (bufRunReads (with_capacity c s) ds).2 = s.data ∧
    ∃ rest, concatOks (bufRunReads (with_capacity c s) ds).1 ++ rest = s.data := by
  have hc := bufRunReads_conserve ds (with_capacity c s) (with_capacity_inv c s)
  rw [with_capacity_stream c s] at hc
  exact ⟨hc.1, ⟨streamOf (bufRunReads (with_capacity c s) ds).2, hc.1⟩⟩

/-- Compacting in the interesting branch (`pos` strictly between `0` and
`cap`, `cap` within the storage) moves the unread bytes to offset `0`
without changing them. -/
theorem make_room_moves (b : BufReader) (h0 : b.pos ≠ 0) (hc : b.pos ≠ b.cap)
    (hinv : Inv b) :
    (make_room b).pos = 0 ∧ (make_room b).cap = b.cap - b.pos ∧
    get_buf (make_room b) = get_buf b ∧
    (make_room b).buf.length = b.buf.length := by
  obtain ⟨h1, h2⟩ := hinv
  have hlen : (listSlice b.buf b.pos b.cap).length = b.cap - b.pos := by
    simp [listSlice]
    omega
  have hwl : (writeAt b.buf 0 (listSlice b.buf b.pos b.cap)).length = b.buf.length :=
    writeAt_length _ _ _ (by simp [hlen]; omega)
  have hslice : listSlice (writeAt b.buf 0 (listSlice b.buf b.pos b.cap)) 0
      (listSlice b.buf b.pos b.cap).length = listSlice b.buf b.pos b.cap :=
    listSlice_writeAt_self _ _
  have hif : ¬(b.pos = b.cap ∨ b.pos = 0) := by tauto
  refine ⟨?_, ?_, ?_, ?_⟩
  · simp [make_room, hc, h0]
  · simp [make_room, hc, h0]
  · simp only [make_room, if_neg hif, get_buf]
    rw [← hlen]
    exact hslice
  · simp only [make_room, if_neg hif]
    exact hwl

/-- Compacting always preserves the cursor invariant. -/
theorem make_room_inv (b : BufReader) (h : Inv b) : Inv (make_room b) := by
  obtain ⟨h1, h2⟩ := h
  by_cases htriv : b.pos = b.cap ∨ b.pos = 0
  · simp [make_room, htriv, Inv]
  · push_neg at htriv
    obtain ⟨hm1, hm2, hm3, hm4⟩ := make_room_moves b htriv.2 htriv.1 ⟨h1, h2⟩
    exact ⟨by omega, by rw [hm2, hm4]; omega⟩

/-- The refill of `read_into_buf` preserves the cursor invariant. -/
theorem read_into_buf_inv (b : BufReader) (h : Inv b) : Inv (read_into_buf b).2 := by
  by_cases hpc : b.pos = b.cap
  · cases hsr : srcRead b.inner b.buf.length with
    | mk r s1 =>
        cases r with
        | error e =>
            simp only [read_into_buf, hpc, if_pos rfl, if_true, hsr]
            simpa [Inv, hpc] using h.2
        | ok c =>
            have hclen : c.length ≤ b.buf.length :=
              srcRead_ok_len b.inner b.buf.length c (by rw [hsr])
            have hL : (writeAt b.buf 0 c).length = b.buf.length :=
              writeAt_length b.buf c 0 (by simpa using hclen)
            simp only [read_into_buf, hpc, if_pos rfl, if_true, hsr]
            exact ⟨Nat.zero_le _, by simpa [hL] using hclen⟩
  · have hinv1 : Inv (if b.buf.length - b.cap < b.pos ∧ MOVE_THRESHOLD < b.pos
        then make_room b else b) := by
      split
      · exact make_room_inv b h
      · exact h
    set b1 := if b.buf.length - b.cap < b.pos ∧ MOVE_THRESHOLD < b.pos
        then make_room b else b with hb1
    obtain ⟨ha, hb⟩ := hinv1
    cases hsr : srcRead b1.inner (b1.buf.length - b1.cap) with
    | mk r s1 =>
        cases r with
        | error e =>
            simp only [read_into_buf, if_neg hpc, ← hb1, hsr]
            exact ⟨ha, hb⟩
        | ok c =>
            have hclen : c.length ≤ b1.buf.length - b1.cap :=
              srcRead_ok_len b1.inner (b1.buf.length - b1.cap) c (by rw [hsr])
            have hL : (writeAt b1.buf b1.cap c).length = b1.buf.length :=
              writeAt_length _ _ _ (by omega)
            simp only [read_into_buf, if_neg hpc, ← hb1, hsr]
            refine ⟨?_, ?_⟩
            · simp
              omega
            · simp [hL]
              omega

/-- Growing the buffer preserves the cursor invariant (the storage never
shrinks). -/
theorem grow_inv (b : BufReader) (n : Nat) (h : Inv b) : Inv (grow b n) := by
  refine ⟨h.1, Nat.le_trans h.2 ?_⟩
  simp [grow]

/-- Seeking preserves the cursor invariant: every path either leaves `pos`
alone or sets it to `cap`, and never touches `cap` or the storage. -/
theorem bufSeek_inv (b : BufReader) (sf : SeekFrom) (h : Inv b) :
    Inv (bufSeek b sf).2 ∧ (bufSeek b sf).2.cap = b.cap ∧
    (bufSeek b sf).2.buf = b.buf := by
  obtain ⟨h1, h2⟩ := h
  cases sf with
  | fromCurrent n =>
      cases hcs : checkedSub n ((b.cap - b.pos : Nat) : Int) with
      | some offset =>
          cases hsk : srcSeek b.inner (SeekFrom.fromCurrent offset) with
          | mk r s1 =>
              cases r with
              | error e =>
                  simp only [bufSeek, hcs, hsk]
                  exact ⟨⟨h1, h2⟩, trivial, trivial⟩
              | ok v =>
                  simp only [bufSeek, hcs, hsk]
                  exact ⟨⟨Nat.le_refl _, h2⟩, trivial, trivial⟩
      | none =>
          cases hsk : srcSeek b.inner (SeekFrom.fromCurrent (-((b.cap - b.pos : Nat) : Int))) with
          | mk r s1 =>
              cases r with
              | error e =>
                  simp only [bufSeek, hcs, hsk]
                  exact ⟨⟨h1, h2⟩, trivial, trivial⟩
              | ok v =>
                  cases hsk2 : srcSeek s1 (SeekFrom.fromCurrent n) with
                  | mk r2 s2 =>
                      cases r2 with
                      | error e =>
                          simp only [bufSeek, hcs, hsk, hsk2]
                          exact ⟨⟨Nat.le_refl _, h2⟩, trivial, trivial⟩
                      | ok v2 =>
                          simp only [bufSeek, hcs, hsk, hsk2]
                          exact ⟨⟨Nat.le_refl _, h2⟩, trivial, trivial⟩
  | fromStart n =>
      cases hsk : srcSeek b.inner (SeekFrom.fromStart n) with
      | mk r s1 =>
          cases r with
          | error e =>
              simp only [bufSeek, hsk]
              exact ⟨⟨h1, h2⟩, trivial, trivial⟩
          | ok v =>
              simp only [bufSeek, hsk]
              exact ⟨⟨Nat.le_refl _, h2⟩, trivial, trivial⟩
  | fromEnd n =>
      cases hsk : srcSeek b.inner (SeekFrom.fromEnd n) with
      | mk r s1 =>
          cases r with
          | error e =>
              simp only [bufSeek, hsk]
              exact ⟨⟨h1, h2⟩, trivial, trivial⟩
          | ok v =>
              simp only [bufSeek, hsk]
              exact ⟨⟨Nat.le_refl _, h2⟩, trivial, trivial⟩

/-- Every single operation preserves the cursor invariant. -/
theorem applyOp_inv (b : BufReader) (op : Op) (h : Inv b) : Inv (applyOp b op) := by
  cases op with
  | opRead d => exact (bufRead_step b d h).2
  | opFill => exact fill_buf_inv b h
  | opRefill => exact read_into_buf_inv b h
  | opConsume a => exact consume_inv b a h
  | opMakeRoom => exact make_room_inv b h
  | opGrow n => exact grow_inv b n h
  | opSeek sf => exact (bufSeek_inv b sf h).1

/-- Every sequence of operations preserves the cursor invariant. -/
theorem applyOps_inv (ops : List Op) (b : BufReader) (h : Inv b) :
    Inv (applyOps b ops) := by
  induction ops generalizing b with
  | nil => simpa [applyOps] using h
  | cons op ops ih =>
      have := applyOp_inv b op h
      simpa [applyOps] using ih (applyOp b op) this

/-- One `Unbuffer` read keeps `pos` within the remnant and never changes
the remnant storage (the drain-completion release is a no-op in the code). -/
theorem unbufRead_pres (u : Unbuffer) (d : Nat) (h : u.pos ≤ u.buf.length) :
    (unbufRead u d).2.pos ≤ (unbufRead u d).2.buf.length ∧
    (unbufRead u d).2.buf = u.buf := by
  by_cases hlt : u.pos < u.buf.length
  · simp [unbufRead, hlt]
    omega
  · cases hsr : srcRead u.inner d with
    | mk r s1 =>
        simp [unbufRead, hlt, hsr]
        exact h

/-- Any sequence of `Unbuffer` reads keeps `pos` within the remnant, whose
storage is never changed. -/
theorem unbufRunReads_pres (ds : List Nat) (u : Unbuffer) (h : u.pos ≤ u.buf.length) :
    (unbufRunReads u ds).pos ≤ (unbufRunReads u ds).buf.length ∧
    (unbufRunReads u ds).buf = u.buf := by
  induction ds generalizing u with
  | nil => exact ⟨h, rfl⟩
  | cons d ds ih =>
      obtain ⟨h1, h2⟩ := unbufRead_pres u d h
      obtain ⟨h3, h4⟩ := ih (unbufRead u d).2 h1
      exact ⟨h3, by rw [unbufRunReads, h4, h2]⟩

/-- The transition to `Unbuffer` starts inside the remnant. -/
theorem unbuffer_pos (b : BufReader) (h : Inv b) :
    (unbuffer b).pos ≤ (unbuffer b).buf.length := by
  obtain ⟨h1, h2⟩ := h
  simp [unbuffer]
  omega

/-- Claim C6: every reader state reachable from construction by any
sequence of the public operations (read, fill_buf, read_into_buf, consume,
make_room, grow, seek) satisfies `0 ≤ pos ≤ cap ≤ L`; the modelled source
reports at most the span length on every read, which is the claim's
precondition.  Likewise every `Unbuffer` state reachable from such a
reader by read calls satisfies `0 ≤ pos ≤ N` with `N` (the remnant
storage) fixed at creation. -/
theorem reachable_states_satisfy_invariants (c : Nat) (s : Src) (ops : List Op) :
    (applyOps (with_capacity c s) ops).pos ≤ (applyOps (with_capacity c s) ops).cap ∧
    (applyOps (with_capacity c s) ops).cap ≤ (applyOps (with_capacity c s) ops).buf.length ∧
    ∀ ds,
      (unbufRunReads (unbuffer (applyOps (with_capacity c s) ops)) ds).pos ≤
        (unbuffer (applyOps (with_capacity c s) ops)).buf.length ∧
      (unbufRunReads (unbuffer (applyOps (with_capacity c s) ops)) ds).buf =
        (unbuffer (applyOps (with_capacity c s) ops)).buf := by
  have hinv := applyOps_inv ops (with_capacity c s) (with_capacity_inv c s)
  refine ⟨hinv.1, hinv.2, ?_⟩
  intro ds
  have h0 := unbuffer_pos _ hinv
  obtain ⟨h1, h2⟩ := unbufRunReads_pres ds _ h0
  exact ⟨by rwa [h2] at h1, h2⟩

/-- The intermediate state of the partially-consumed refill branch: the
reader after the optional compaction step. -/
def refillPre (b : BufReader) : BufReader :=
  if b.buf.length - b.cap < b.pos ∧ MOVE_THRESHOLD < b.pos then make_room b else b

/-- An idle source used by the concrete test states below. -/
def srcNil : Src :=
  { data := [], resp := [], pos := 0, endLen := 0, seekErrs := [], rlog := [], slog := [] }

/-- A source whose next seek fails. -/
def srcSeekFail : Src := { srcNil with seekErrs := [true] }

/-- A source at position 5 whose first seek succeeds and second fails. -/
def srcTwoStep : Src := { srcNil with pos := 5, seekErrs := [false, true] }

/-- A source holding four bytes, answering one read with up to three. -/
def srcW : Src := { srcNil with data := [1, 2, 3, 4], resp := [SrcResp.ok 3] }

/-- A reader whose unread region starts at offset 0 and is non-empty. -/
def bC2 : BufReader := { inner := srcNil, buf := [7], vcap := 1, pos := 0, cap := 1 }

/-- An adapter with a two-byte remnant. -/
def uC3 : Unbuffer := { inner := srcNil, buf := [1, 2], pos := 0 }

/-- A reader with one unread byte over a source whose seek fails. -/
def bC4 : BufReader := { inner := srcSeekFail, buf := [0], vcap := 1, pos := 0, cap := 1 }

/-- A reader with one unread byte over a source whose seek succeeds. -/
def bC4ok : BufReader := { inner := srcNil, buf := [0], vcap := 1, pos := 0, cap := 1 }

/-- A reader with one buffered byte for the two-step seek scenario. -/
def bC5 : BufReader := { inner := srcTwoStep, buf := [9], vcap := 1, pos := 0, cap := 1 }

/-- A partially-consumed reader with a full buffer below the move
threshold. -/
def bC7 : BufReader := { inner := srcW, buf := [5, 6], vcap := 2, pos := 1, cap := 2 }

/-- A reader with an empty unread region. -/
def bC8 : BufReader := { inner := srcW, buf := [0, 0], vcap := 2, pos := 0, cap := 0 }

/-- A reader with two unread bytes out of three. -/
def bC9 : BufReader := { inner := srcNil, buf := [1, 2, 3], vcap := 3, pos := 1, cap := 3 }

/-- Claim C2 (failing-input evidence): at `pos = 0 < cap = 1` the code's
`make_room` resets `cap` to `0` and discards the unread byte, instead of
preserving the unread sequence with `cap' = cap - pos = 1` as the claim
(and the function's own documentation) require. -/
theorem make_room_pos_zero_discards_unread :
    bC2.pos = 0 ∧ bC2.cap = 1 ∧ get_buf bC2 = [7] ∧
    (make_room bC2).cap = 0 ∧ get_buf (make_room bC2) = [] := by
  decide

/-- Claim C3 (failing-input evidence): draining the two-byte remnant to
completion (`pos` reaches `N = 2`) leaves the remnant storage allocated
(`buf` still `[1, 2]`) because the release statement in the code is a
comparison with no effect; the claim (and the adapter's documentation)
say the storage is replaced by an empty allocation. -/
theorem unbuffer_drain_leaves_storage :
    (unbufRead uC3 2).2.pos = 2 ∧ uC3.buf.length = 2 ∧
    (unbufRead uC3 2).2.buf = [1, 2] ∧ buf_len (unbufRead uC3 2).2 = 0 := by
  decide

/-- Claim C4 (counterexample): a `Start`-relative seek whose underlying
seek fails returns the error with the buffered state NOT marked consumed:
`pos = 0 < cap = 1` still holds afterwards, contradicting the claim that
`pos = cap` holds in all seek outcomes. -/
theorem seek_failure_keeps_unread_cex :
    (bufSeek bC4 (SeekFrom.fromStart 0)).1 = Except.error () ∧
    ¬ ((bufSeek bC4 (SeekFrom.fromStart 0)).2.pos =
       (bufSeek bC4 (SeekFrom.fromStart 0)).2.cap) := by
  exact ⟨rfl, by decide⟩

/-- Claim C4 (amended): after every seek call that returns success,
`pos = cap` holds; when the underlying seek fails the buffered `pos` is
either left unchanged (single-seek paths, or failure of the first of the
two seeks) or already equals `cap` (failure of the second seek in the
two-step path); `cap` and the buffer contents are never touched by a
seek. -/
theorem seek_discards_buffer_on_success (b : BufReader) (sf : SeekFrom) :
    (∀ v, (bufSeek b sf).1 = Except.ok v →
        (bufSeek b sf).2.pos = (bufSeek b sf).2.cap) ∧
    ((bufSeek b sf).1 = Except.error () →
        (bufSeek b sf).2.pos = b.pos ∨
        (bufSeek b sf).2.pos = (bufSeek b sf).2.cap) ∧
    (bufSeek b sf).2.cap = b.cap ∧ (bufSeek b sf).2.buf = b.buf := by
  cases sf with
  | fromCurrent n =>
      cases hcs : checkedSub n ((b.cap - b.pos : Nat) : Int) with
      | some offset =>
          cases hsk : srcSeek b.inner (SeekFrom.fromCurrent offset) with
          | mk r s1 =>
              cases r with
              | error e => cases e; simp [bufSeek, hcs, hsk]
              | ok v => simp [bufSeek, hcs, hsk]
      | none =>
          cases hsk : srcSeek b.inner (SeekFrom.fromCurrent (-((b.cap - b.pos : Nat) : Int))) with
          | mk r s1 =>
              cases r with
              | error e => cases e; simp [bufSeek, hcs, hsk]
              | ok v =>
                  cases hsk2 : srcSeek s1 (SeekFrom.fromCurrent n) with
                  | mk r2 s2 =>
                      cases r2 with
                      | error e => cases e; simp [bufSeek, hcs, hsk, hsk2]
                      | ok v2 => simp [bufSeek, hcs, hsk, hsk2]
  | fromStart n =>
      cases hsk : srcSeek b.inner (SeekFrom.fromStart n) with
      | mk r s1 =>
          cases r with
          | error e => cases e; simp [bufSeek, hsk]
          | ok v => simp [bufSeek, hsk]
  | fromEnd n =>
      cases hsk : srcSeek b.inner (SeekFrom.fromEnd n) with
      | mk r s1 =>
          cases r with
          | error e => cases e; simp [bufSeek, hsk]
          | ok v => simp [bufSeek, hsk]

/-- Witness for the amended C4 theorem at a concrete successful seek. -/
theorem seek_discards_buffer_on_success_witness :
    (bufSeek bC4ok (SeekFrom.fromStart 3)).2.pos =
      (bufSeek bC4ok (SeekFrom.fromStart 3)).2.cap :=
  (seek_discards_buffer_on_success bC4ok (SeekFrom.fromStart 3)).1 3 rfl

/-- Claim C5: when `n - remainder` underflows the signed 64-bit range, the
seek issues exactly the two source seeks `Current(-remainder)` then
`Current(n)`; if the first succeeds and the second fails, the error is
propagated, the source is left exactly at the reader's pre-seek logical
position (its physical position minus the buffered remainder, i.e. the
position established by the first seek), and the buffer is marked
consumed. -/
theorem two_step_seek_recovery (b : BufReader) (n : Int)
    (h1 : n - ((b.cap - b.pos : Nat) : Int) < -(2 ^ 63))
    (h2 : b.inner.seekErrs.headD false = false)
    (h3 : b.inner.seekErrs.tail.headD false = true) :
    (bufSeek b (SeekFrom.fromCurrent n)).1 = Except.error () ∧
    (bufSeek b (SeekFrom.fromCurrent n)).2.inner.slog =
      b.inner.slog ++ [SeekFrom.fromCurrent (-((b.cap - b.pos : Nat) : Int)),
                       SeekFrom.fromCurrent n] ∧
    (bufSeek b (SeekFrom.fromCurrent n)).2.inner.pos =
      b.inner.pos - ((b.cap - b.pos : Nat) : Int) ∧
    (bufSeek b (SeekFrom.fromCurrent n)).2.pos =
      (bufSeek b (SeekFrom.fromCurrent n)).2.cap := by
  have hcs : checkedSub n ((b.cap - b.pos : Nat) : Int) = none := by
    unfold checkedSub
    rw [if_neg]
    intro hh
    omega
  have h2' : b.inner.seekErrs.head?.getD false = false := by
    simpa [List.headD_eq_head?_getD] using h2
  have h3' : b.inner.seekErrs[1]?.getD false = true := by
    simpa [List.headD_eq_head?_getD] using h3
  simp [bufSeek, hcs, srcSeek, h2', h3', Int.sub_eq_add_neg]

/-- Witness for the C5 theorem at a concrete underflowing seek. -/
theorem two_step_seek_recovery_witness :
    (bufSeek bC5 (SeekFrom.fromCurrent (-(2 ^ 63)))).1 = Except.error () ∧
    (bufSeek bC5 (SeekFrom.fromCurrent (-(2 ^ 63)))).2.inner.slog =
      bC5.inner.slog ++ [SeekFrom.fromCurrent (-((bC5.cap - bC5.pos : Nat) : Int)),
                         SeekFrom.fromCurrent (-(2 ^ 63))] ∧
    (bufSeek bC5 (SeekFrom.fromCurrent (-(2 ^ 63)))).2.inner.pos =
      bC5.inner.pos - ((bC5.cap - bC5.pos : Nat) : Int) ∧
    (bufSeek bC5 (SeekFrom.fromCurrent (-(2 ^ 63)))).2.pos =
      (bufSeek bC5 (SeekFrom.fromCurrent (-(2 ^ 63)))).2.cap :=
  two_step_seek_recovery bC5 (-(2 ^ 63)) (by decide) (by decide) (by decide)

/-- The bypass branch of `read` as an equation: with an empty unread region
and a destination spanning the whole buffer, `read` is exactly one direct
source read. -/
theorem bufRead_bypass_eq (b : BufReader) (d : Nat)
    (h1 : b.pos = b.cap) (h2 : b.buf.length ≤ d) :
    bufRead b d = ((srcRead b.inner d).1, { b with inner := (srcRead b.inner d).2 }) := by
  have hby : b.pos = b.cap ∧ b.buf.length ≤ d := ⟨h1, h2⟩
  cases hsr : srcRead b.inner d with
  | mk r s1 => simp [bufRead, hby, hsr]

/-- Claim C8: a `read` in a state with an empty unread region and a
destination at least as long as the whole internal buffer bypasses the
buffer: exactly one source read of span `destLen` is issued, its result is
returned unchanged, and the buffer contents and both cursors are
unmodified. -/
theorem large_read_bypass (b : BufReader) (d : Nat)
    (h1 : b.pos = b.cap) (h2 : b.buf.length ≤ d) :
    bufRead b d = ((srcRead b.inner d).1, { b with inner := (srcRead b.inner d).2 }) ∧
    (bufRead b d).2.buf = b.buf ∧ (bufRead b d).2.pos = b.pos ∧
    (bufRead b d).2.cap = b.cap ∧ (bufRead b d).2.vcap = b.vcap ∧
    (bufRead b d).2.inner.rlog = b.inner.rlog ++ [d] := by
  have heq := bufRead_bypass_eq b d h1 h2
  have hrl := srcRead_rlog b.inner d
  exact ⟨heq, by rw [heq], by rw [heq], by rw [heq], by rw [heq],
         by rw [heq]; exact hrl⟩

/-- Witness for the C8 theorem at a concrete bypassing read. -/
theorem large_read_bypass_witness :
    bufRead bC8 5 = ((srcRead bC8.inner 5).1,
      { bC8 with inner := (srcRead bC8.inner 5).2 }) ∧
    (bufRead bC8 5).2.buf = bC8.buf :=
  ⟨(large_read_bypass bC8 5 (by decide) (by decide)).1,
   (large_read_bypass bC8 5 (by decide) (by decide)).2.1⟩

/-- Claim C9: `consume(amt)` sets `pos` to `min (pos + amt) cap`:
`consume 0` is the identity, `amt ≤ available` advances `pos` by exactly
`amt`, a larger `amt` silently clamps `pos` to `cap`; `cap`, the buffer
and the source are untouched. -/
theorem consume_clamps (b : BufReader) (amt : Nat) (h : b.pos ≤ b.cap) :
    (consume b amt).pos = min (b.pos + amt) b.cap ∧
    consume b 0 = b ∧
    (amt ≤ available b → (consume b amt).pos = b.pos + amt) ∧
    (available b < amt → (consume b amt).pos = b.cap) ∧
    (consume b amt).cap = b.cap ∧ (consume b amt).buf = b.buf ∧
    (consume b amt).inner = b.inner := by
  refine ⟨rfl, ?_, ?_, ?_, rfl, rfl, rfl⟩
  · cases b with
    | mk inner buf vcap pos cap =>
        simp only [consume]
        simp at h ⊢
        omega
  · intro ha
    simp only [consume, available] at ha ⊢
    simp
    omega
  · intro ha
    simp only [consume, available] at ha ⊢
    simp
    omega

/-- Witness for the C9 theorem at a concrete over-large consume. -/
theorem consume_clamps_witness :
    (consume bC9 5).pos = bC9.cap ∧ consume bC9 0 = bC9 :=
  ⟨(consume_clamps bC9 5 (by decide)).2.2.2.1 (by decide),
   (consume_clamps bC9 5 (by decide)).2.1⟩

/-- Compacting never touches the owned source. -/
theorem make_room_inner (b : BufReader) : (make_room b).inner = b.inner := by
  unfold make_room
  split <;> rfl

/-- Claim C7: in a partially consumed state, `read_into_buf` compacts via
`make_room` exactly when the tail free space `L - cap` is smaller than
`pos` and `pos` exceeds `MOVE_THRESHOLD` (the compaction preserving the
unread bytes and resetting `pos` to 0); it then issues exactly one source
read whose span is the remaining tail capacity of the (possibly
compacted) buffer, adding the bytes received to `cap` — at most one source
read per call, also on failure. -/
theorem refill_compaction_policy (b : BufReader)
    (h1 : b.pos < b.cap) (h2 : b.cap ≤ b.buf.length) :
    (read_into_buf b).2.inner.rlog =
        b.inner.rlog ++ [(refillPre b).buf.length - (refillPre b).cap] ∧
    ((b.buf.length - b.cap < b.pos ∧ MOVE_THRESHOLD < b.pos) →
        (refillPre b).pos = 0 ∧ (refillPre b).cap = b.cap - b.pos ∧
        get_buf (refillPre b) = get_buf b) ∧
    (¬ (b.buf.length - b.cap < b.pos ∧ MOVE_THRESHOLD < b.pos) → refillPre b = b) ∧
    (∀ n, (read_into_buf b).1 = Except.ok n →
        (read_into_buf b).2.cap = n ∧ (refillPre b).cap ≤ n ∧
        n ≤ (refillPre b).buf.length ∧
        (read_into_buf b).2.pos = (refillPre b).pos) ∧
    ((read_into_buf b).1 = Except.error () →
        (read_into_buf b).2.pos = (refillPre b).pos ∧
        (read_into_buf b).2.cap = (refillPre b).cap ∧
        (read_into_buf b).2.buf = (refillPre b).buf) := by
  have hpc : ¬ b.pos = b.cap := Nat.ne_of_lt h1
  have hinv : Inv b := ⟨Nat.le_of_lt h1, h2⟩
  have hinvPre : Inv (refillPre b) := by
    unfold refillPre
    split
    · exact make_room_inv b hinv
    · exact hinv
  have hinner : (refillPre b).inner = b.inner := by
    unfold refillPre
    split
    · exact make_room_inner b
    · rfl
  have hcomp : (b.buf.length - b.cap < b.pos ∧ MOVE_THRESHOLD < b.pos) →
      (refillPre b).pos = 0 ∧ (refillPre b).cap = b.cap - b.pos ∧
      get_buf (refillPre b) = get_buf b := by
    intro hcc
    have h1024 : (1024 : Nat) < b.pos := hcc.2
    have h0 : b.pos ≠ 0 := by omega
    have hm := make_room_moves b h0 hpc hinv
    have hrw : refillPre b = make_room b := by simp [refillPre, hcc]
    rw [hrw]
    exact ⟨hm.1, hm.2.1, hm.2.2.1⟩
  have hnocomp : ¬ (b.buf.length - b.cap < b.pos ∧ MOVE_THRESHOLD < b.pos) →
      refillPre b = b := by
    intro hnc
    simp [refillPre, hnc]
  have hred : read_into_buf b =
      match srcRead (refillPre b).inner ((refillPre b).buf.length - (refillPre b).cap) with
      | (Except.error e, s1) =>
          (Except.error e,
           BufReader.mk s1 (refillPre b).buf (refillPre b).vcap (refillPre b).pos
             (refillPre b).cap)
      | (Except.ok c, s1) =>
          (Except.ok ((refillPre b).cap + c.length),
           BufReader.mk s1 (writeAt (refillPre b).buf (refillPre b).cap c)
             (refillPre b).vcap (refillPre b).pos ((refillPre b).cap + c.length)) := by
    simp only [read_into_buf, if_neg hpc]
    rfl
  rw [hred]
  have hrl := srcRead_rlog (refillPre b).inner ((refillPre b).buf.length - (refillPre b).cap)
  cases hsr : srcRead (refillPre b).inner ((refillPre b).buf.length - (refillPre b).cap) with
  | mk r s1 =>
      rw [hsr] at hrl
      simp at hrl
      rw [hinner] at hrl
      cases r with
      | error e =>
          cases e
          exact ⟨hrl, hcomp, hnocomp,
                 fun n hn => Except.noConfusion hn,
                 fun _ => ⟨rfl, rfl, rfl⟩⟩
      | ok c =>
          have hcl : c.length ≤ (refillPre b).buf.length - (refillPre b).cap :=
            srcRead_ok_len _ _ c (by rw [hsr])
          refine ⟨hrl, hcomp, hnocomp, ?_, fun hn => Except.noConfusion hn⟩
          intro n hn
          cases hn
          have hc2 := hinvPre.2
          exact ⟨rfl, Nat.le_add_right _ _, by omega, rfl⟩

/-- Witness for the C7 theorem at a concrete partially-consumed refill
below the move threshold (no compaction). -/
theorem refill_compaction_policy_witness :
    (read_into_buf bC7).2.inner.rlog =
        bC7.inner.rlog ++ [(refillPre bC7).buf.length - (refillPre bC7).cap] ∧
    refillPre bC7 = bC7 :=
  ⟨(refill_compaction_policy bC7 (by decide) (by decide)).1,
   (refill_compaction_policy bC7 (by decide) (by decide)).2.2.1 (by decide)⟩

/-- Every read on a zero-length-buffer reader with both cursors at zero is
forwarded directly to the source, and the degenerate state persists. -/
theorem degenerate_run (ds : List Nat) (b : BufReader) (hb : b.buf = [])
    (hp : b.pos = 0) (hc : b.cap = 0) :
    (bufRunReads b ds).1 = (srcRunReads b.inner ds).1 ∧
    (bufRunReads b ds).2.buf = [] ∧ (bufRunReads b ds).2.pos = 0 ∧
    (bufRunReads b ds).2.cap = 0 ∧
    (bufRunReads b ds).2.inner = (srcRunReads b.inner ds).2 := by
  induction ds generalizing b with
  | nil => simp [bufRunReads, srcRunReads, hb, hp, hc]
  | cons d ds ih =>
      have heq := bufRead_bypass_eq b d (by rw [hp, hc]) (by simp [hb])
      obtain ⟨i1, i2, i3, i4, i5⟩ :=
        ih { b with inner := (srcRead b.inner d).2 } (by simp [hb]) (by simp [hp])
          (by simp [hc])
      refine ⟨?_, ?_, ?_, ?_, ?_⟩ <;>
        simp [bufRunReads, srcRunReads, heq, i1, i2, i3, i4, i5]

/-- A `fill_buf` on a zero-length-buffer reader issues one source read of
span 0 and can only return the empty slice. -/
theorem degenerate_fill (b : BufReader) (hb : b.buf = [])
    (hp : b.pos = 0) (hc : b.cap = 0) :
    (fill_buf b).2.inner.rlog = b.inner.rlog ++ [0] ∧
    (∀ v, (fill_buf b).1 = Except.ok v → v = []) := by
  have hpc : b.pos = b.cap := by rw [hp, hc]
  have hrl := srcRead_rlog b.inner b.buf.length
  rw [hb] at hrl
  simp at hrl
  cases hsr : srcRead b.inner 0 with
  | mk r s1 =>
      have hsr' : srcRead b.inner b.buf.length = (r, s1) := by rw [hb]; exact hsr
      rw [hsr] at hrl
      simp at hrl
      cases r with
      | error e =>
          constructor
          · simp [fill_buf, hpc, hsr', hrl]
          · intro v hv
            simp [fill_buf, hpc, hsr'] at hv
      | ok c =>
          have hcl : c.length ≤ 0 := srcRead_ok_len b.inner 0 c (by rw [hsr])
          have hcnil : c = [] := List.eq_nil_of_length_eq_zero (by omega)
          constructor
          · simp [fill_buf, hpc, hsr', hrl]
          · intro v hv
            simp [fill_buf, hpc, hsr'] at hv
            rw [← hv]
            simp [get_buf, hcnil, listSlice_same]

/-- Claim C10: a reader built with `with_capacity 0` (the allocator
delivering no excess for a zero-byte reservation) has a zero-length
buffer, so every subsequent `read` — for any destination length — takes
the bypass path and is forwarded directly to the source, the degenerate
buffer state persists, and every `fill_buf` issues a zero-length source
read and can only return the empty slice: the wrapper is a pure
passthrough. -/
theorem zero_capacity_is_passthrough (s : Src) (ds : List Nat) :
    (with_capacity 0 s).buf = [] ∧
    (bufRunReads (with_capacity 0 s) ds).1 = (srcRunReads s ds).1 ∧
    (bufRunReads (with_capacity 0 s) ds).2.inner = (srcRunReads s ds).2 ∧
    (bufRunReads (with_capacity 0 s) ds).2.buf = [] ∧
    (bufRunReads (with_capacity 0 s) ds).2.pos =
      (bufRunReads (with_capacity 0 s) ds).2.cap ∧
    (fill_buf (bufRunReads (with_capacity 0 s) ds).2).2.inner.rlog =
      (bufRunReads (with_capacity 0 s) ds).2.inner.rlog ++ [0] ∧
    (∀ v, (fill_buf (bufRunReads (with_capacity 0 s) ds).2).1 = Except.ok v →
      v = []) := by
  have hb0 : (with_capacity 0 s).buf = [] := rfl
  obtain ⟨r1, r2, r3, r4, r5⟩ := degenerate_run ds (with_capacity 0 s) hb0 rfl rfl
  obtain ⟨f1, f2⟩ := degenerate_fill (bufRunReads (with_capacity 0 s) ds).2 r2 r3 r4
  exact ⟨hb0, r1, r5, r2, by rw [r3, r4], f1, f2⟩

/-- Witness for the C10 theorem at a concrete source and read sequence. -/
theorem zero_capacity_is_passthrough_witness :
    (bufRunReads (with_capacity 0 srcW) [5]).1 = (srcRunReads srcW [5]).1 ∧
    (bufRunReads (with_capacity 0 srcW) [5]).2.buf = [] ∧
    (fill_buf (bufRunReads (with_capacity 0 srcW) [5]).2).1 = Except.ok [] :=
  ⟨(zero_capacity_is_passthrough srcW [5]).2.1,
   (zero_capacity_is_passthrough srcW [5]).2.2.2.1,
   by rfl⟩

end BufRedux
